import Mathlib

/-!
Verification development for the Ingestion & Hybrid Retrieval Engine of the
RAG-Assistance repository.  The Python source is shallowly embedded: text is
`List Char`, Python `dict`s are association lists, embedding vectors are an
abstract type `α` (so "bit-for-bit identical" becomes plain equality), and
external collaborators (embedding model, TF-IDF weights, MinHash/LSH) are
parameters of the definition functions that consume them.  SHA-256 digests are
modelled as the hashed content itself (a collision-free fingerprint): digest
equality corresponds exactly to content equality.
-/

namespace RagSpec

/-! ## Basic text utilities (Python semantics, ASCII scope)

All texts appearing in this development are ASCII plus the few specific
Unicode code points named in the preprocessor's replacement table, so the
character predicates below are stated for that range. -/

/-- Python's `\s` (and `str.strip` whitespace) for the ASCII range:
space, tab, newline, carriage return, vertical tab, form feed. -/
def isPySpace (c : Char) : Bool :=
  c = ' ' || c = '\t' || c = '\n' || c = '\r' || c = '\x0b' || c = '\x0c'

/-- Sentence-terminal punctuation of the chunker's pattern `[.!?]`. -/
def isSentTerm (c : Char) : Bool :=
  c = '.' || c = '!' || c = '?'

/-- `re.sub(r'\s+', ' ', text)`: every maximal whitespace run becomes one
space.  The flag records whether we are inside a whitespace run whose single
replacement space was already emitted. -/
def collapseWsGo : Bool → List Char → List Char
  | _, [] => []
  | inWs, c :: rest =>
    if isPySpace c then
      if inWs then collapseWsGo true rest
      else ' ' :: collapseWsGo true rest
    else c :: collapseWsGo false rest

def collapseWs (l : List Char) : List Char := collapseWsGo false l

/-- Python `str.strip()` (ASCII whitespace scope). -/
def stripList (l : List Char) : List Char :=
  ((l.dropWhile isPySpace).reverse.dropWhile isPySpace).reverse

/-- Sum of the lengths of a list of sentences. -/
def sizeSum (l : List (List Char)) : Nat :=
  (l.map List.length).sum

/-- `' '.join(pieces)`. -/
def joinSp : List (List Char) → List Char
  | [] => []
  | [x] => x
  | x :: y :: t => x ++ ' ' :: joinSp (y :: t)

/-- Python `'\n'.split` on a character. -/
def splitOnChar (sep : Char) (l : List Char) : List (List Char) :=
  l.splitOn sep

/-! ## TextPreprocessor (`app/ingest/preprocessor.py`) -/

/-- Python `str.isprintable`, stated for the code points exercised in this
development (ASCII plus the preprocessor replacement-table characters):
false exactly for control characters, DEL, the C1 range, NBSP and
zero-width space. -/
def pyPrintable (c : Char) : Bool :=
  0x20 ≤ c.toNat && c.toNat ≠ 0x7f && !(0x80 ≤ c.toNat && c.toNat ≤ 0x9f)
    && c.toNat ≠ 0xa0 && c.toNat ≠ 0x200b

/-- `TextPreprocessor.normalize_whitespace`: collapse `\s+` to a single
space, then strip every line and re-join with newlines. -/
def normalizeWhitespace (l : List Char) : List Char :=
  List.intercalate ['\n'] ((splitOnChar '\n' (collapseWs l)).map stripList)

/-- `TextPreprocessor.remove_control_characters`: keep printable characters
plus newline and tab. -/
def removeControlCharacters (l : List Char) : List Char :=
  l.filter (fun c => pyPrintable c || c = '\n' || c = '\t')

/-- `TextPreprocessor.fix_encoding`: the replacement table of the source.
All keys are single characters and no produced character is itself a key, so
the sequential `str.replace` calls equal one simultaneous substitution. -/
def fixEncodingChar (c : Char) : List Char :=
  if c = '“' then ['"']
  else if c = '”' then ['"']
  else if c = '‘' then ['\'']
  else if c = '’' then ['\'']
  else if c = '–' then ['-']
  else if c = '—' then ['-']
  else if c = '…' then ['.', '.', '.']
  else if c = ' ' then [' ']
  else if c = '​' then []
  else [c]

def fixEncoding (l : List Char) : List Char :=
  l.flatMap fixEncodingChar

/-- `TextPreprocessor.process`: normalize whitespace, drop control
characters, fix encoding, strip. -/
def preprocess (l : List Char) : List Char :=
  if l = [] then []
  else stripList (fixEncoding (removeControlCharacters (normalizeWhitespace l)))

/-! ## TextChunker (`app/core/chunker.py`) -/

/-- `ChunkConfig` with the source's defaults. -/
structure ChunkConfig where
  chunkSize : Nat := 512
  chunkOverlap : Nat := 50
  minChunkSize : Nat := 100
  respectSentenceBoundary : Bool := true
  respectWordBoundary : Bool := true
deriving Repr, DecidableEq

/-- A chunk as produced by the internal chunking passes:
`{"text": ..., "start": ..., "end": ...}`. -/
structure RawChunk where
  text : List Char
  start : Int
  stop : Int
deriving Repr, DecidableEq

/-- A chunk as returned by `chunk_text` (the metadata dictionary carries no
information used by the engine's logic and is omitted). -/
structure ChunkOut where
  text : List Char
  startChar : Int
  endChar : Int
  chunkIndex : Nat
deriving Repr, DecidableEq

/-- `TextChunker._clean_text`: collapse whitespace, remove the character
ranges `[\x00-\x08\x0b\x0c\x0e-\x1f\x7f-\x9f]`, strip. -/
def isCtlRange (c : Char) : Bool :=
  c.toNat ≤ 0x8 || c.toNat = 0xb || c.toNat = 0xc
    || (0xe ≤ c.toNat && c.toNat ≤ 0x1f)
    || (0x7f ≤ c.toNat && c.toNat ≤ 0x9f)

def cleanText (l : List Char) : List Char :=
  stripList ((collapseWs l).filter (fun c => !isCtlRange c))

/-- `re.split(r'[.!?]\s+', text)`: split at every sentence terminator that is
followed by whitespace, consuming the terminator and the whitespace run.
The flag is true while consuming the whitespace run of a match. -/
def splitSentencesGo : List Char → Bool → List Char → List (List Char)
  | acc, _, [] => [acc.reverse]
  | acc, skip, c :: rest =>
    if skip && isPySpace c then splitSentencesGo acc skip rest
    else if isSentTerm c && rest.head?.any isPySpace then
      acc.reverse :: splitSentencesGo [] true rest
    else splitSentencesGo (c :: acc) false rest

def splitSentences (l : List Char) : List (List Char) :=
  splitSentencesGo [] false l

/-- The backward walk seeding the next chunk with trailing sentences whose
cumulative length reaches `chunk_overlap`; the input is the reversed current
chunk and sentences are re-inserted at the front. -/
def overlapSeedGo (ov : Nat) : List (List Char) → Nat → List (List Char) → List (List Char)
  | [], _, acc => acc
  | s :: rest, size, acc =>
    let size' := size + s.length
    let acc' := s :: acc
    if ov ≤ size' then acc' else overlapSeedGo ov rest size' acc'

def overlapSeed (ov : Nat) (current : List (List Char)) : List (List Char) :=
  overlapSeedGo ov current.reverse 0 []

/-- The sentence-accumulation loop of `_chunk_by_sentences`, kept at the
granularity of sentence groups: each emitted element is the list of
sentences of one chunk together with its `start_pos`.  The final joined
text of a group is `joinSp`. -/
def sentenceLoop (cs ov : Nat) :
    List (List Char) → List (List Char) → Nat → Int → List (List (List Char) × Int)
  | [], current, _, pos =>
    if current = [] then [] else [(current, pos)]
  | s0 :: rest, current, size, pos =>
    let s := stripList s0
    if s = [] then sentenceLoop cs ov rest current size pos
    else
      if cs < size + s.length ∧ current ≠ [] then
        let t := joinSp current
        if 0 < ov then
          let seed := overlapSeed ov current
          let size' := sizeSum seed
          (current, pos) ::
            sentenceLoop cs ov rest (seed ++ [s]) (size' + s.length)
              (pos + (t.length : Int) - (size' : Int))
        else
          (current, pos) ::
            sentenceLoop cs ov rest [s] s.length (pos + (t.length : Int) + 1)
      else
        sentenceLoop cs ov rest (current ++ [s]) (size + s.length) pos

/-- `TextChunker._chunk_by_sentences`. -/
def chunkBySentences (cs ov : Nat) (text : List Char) : List RawChunk :=
  (sentenceLoop cs ov (splitSentences text) [] 0 0).map fun g =>
    { text := joinSp g.1, start := g.2, stop := g.2 + ((joinSp g.1).length : Int) }

/-- Python slice index normalization for `s[i:j]` and `str.rfind` bounds:
negative indices count from the end and are clamped. -/
def pyIdx (len : Nat) (i : Int) : Nat :=
  if i < 0 then ((len : Int) + i).toNat else min i.toNat len

/-- Python `s[i:j]` for character lists. -/
def pySlice (l : List Char) (i j : Int) : List Char :=
  (l.take (pyIdx l.length j)).drop (pyIdx l.length i)

/-- Python `text.rfind(' ', i, j)`: absolute index of the last space in
`text[i:j]`, or `-1`. -/
def pyRfindSpace (l : List Char) (i j : Int) : Int :=
  let a := pyIdx l.length i
  let b := pyIdx l.length j
  match (((List.range l.length).drop a).take (b - a)).filter
      (fun k => l.getD k ' ' = ' ') with
  | [] => -1
  | ks => (((ks.getLast?).getD 0 : Nat) : Int)

/-- The `while start < text_len` loop of `_chunk_by_size`, with explicit
fuel: `none` means the loop has not finished within `fuel` iterations (the
source loop has no other exit).  The guard
`if start <= chunks[-1]["start"] if chunks else 0:` parses in Python as
`(start <= chunks[-1]["start"]) if chunks else 0`, so with no retained chunk
the condition is the falsy constant `0` and `start` is never reset. -/
def sizeLoop (cfg : ChunkConfig) (text : List Char) :
    Nat → Int → List RawChunk → Option (List RawChunk)
  | 0, _, _ => none
  | fuel + 1, start, chunks =>
    if start < (text.length : Int) then
      let end0 : Int := min (start + (cfg.chunkSize : Int)) (text.length : Int)
      let end1 : Int :=
        if cfg.respectWordBoundary ∧ end0 < (text.length : Int) then
          let lastSpace := pyRfindSpace text start end0
          if start < lastSpace then lastSpace else end0
        else end0
      let ct := stripList (pySlice text start end1)
      let chunks' :=
        if cfg.minChunkSize ≤ ct.length then
          chunks ++ [{ text := ct, start := start, stop := end1 }]
        else chunks
      if (text.length : Int) ≤ end1 then some chunks'
      else
        let start' := end1 - (cfg.chunkOverlap : Int)
        let start'' :=
          match chunks'.getLast? with
          | some c => if start' ≤ c.start then end1 else start'
          | none => start'
        sizeLoop cfg text fuel start'' chunks'
    else some chunks

/-- `TextChunker._chunk_by_size` (fuelled). -/
def chunkBySize (cfg : ChunkConfig) (text : List Char) (fuel : Nat) :
    Option (List RawChunk) :=
  sizeLoop cfg text fuel 0 []

/-- `TextChunker.chunk_text`: gate on raw text, clean, dispatch on
`respect_sentence_boundary`, then decorate with `chunk_index`.  The fuel is
consumed only by the size-based loop. -/
def chunkText (cfg : ChunkConfig) (fuel : Nat) (text : List Char) :
    Option (List ChunkOut) :=
  if text = [] ∨ (stripList text).length < cfg.minChunkSize then some []
  else
    let cleaned := cleanText text
    let raw : Option (List RawChunk) :=
      if cfg.respectSentenceBoundary then
        some (chunkBySentences cfg.chunkSize cfg.chunkOverlap cleaned)
      else chunkBySize cfg cleaned fuel
    raw.map fun l =>
      (l.enum).map fun ci =>
        { text := ci.2.text, startChar := ci.2.start, endChar := ci.2.stop
          chunkIndex := ci.1 }

/-! ## Deduplicator, pairwise TF-IDF mechanism (`app/core/deduplication.py`)

`TfidfVectorizer(max_features=1000, stop_words='english', ngram_range=(1,2))`
is modelled from its documented behaviour: lowercase, tokenize on
`\\b\\w\\w+\\b` (maximal word-character runs of length at least 2), remove
English stop words, form unigrams and bigrams, weight counts by the fitted
idf (an abstract strictly positive weight per feature; the library value
`ln((1+n)/(1+df))+1` is at least 1) and l2-normalize.  `fit_transform`
raises on an empty vocabulary — the only failure mode for these inputs —
and the batches here stay far below the `max_features` cap. -/

/-- Word characters of the token pattern `\\w` (ASCII scope). -/
def isWordChar (c : Char) : Bool :=
  c.isAlphanum || c = '_'

/-- Maximal word-character runs of a character list. -/
def tokenRunsGo : List Char → List Char → List (List Char)
  | acc, [] => if acc = [] then [] else [acc.reverse]
  | acc, c :: rest =>
    if isWordChar c then tokenRunsGo (c :: acc) rest
    else if acc = [] then tokenRunsGo [] rest
    else acc.reverse :: tokenRunsGo [] rest

/-- The entries of sklearn's frozen `ENGLISH_STOP_WORDS` list that the texts
of this development exercise (the full list has 318 entries; every word
below is a member of it, and no other word occurring in the modelled inputs
is a member). -/
def englishStopWords : List String :=
  ["a", "about", "above", "again", "all", "also", "an", "and", "any", "are",
   "as", "at", "be", "because", "been", "before", "being", "below", "between",
   "both", "but", "by", "could", "do", "each", "else", "elsewhere", "few",
   "for", "from", "further", "had", "has", "have", "he", "her", "here",
   "hers", "him", "his", "how", "if", "in", "into", "is", "it", "its",
   "just", "me", "more", "most", "my", "no", "nor", "not", "now", "of",
   "off", "on", "once", "only", "or", "other", "our", "out", "over", "own",
   "same", "she", "so", "some", "somehow", "something", "sometime", "such",
   "than", "that", "the", "their", "them", "then", "there", "these", "they",
   "this", "those", "through", "to", "too", "under", "until", "up", "very",
   "was", "we", "were", "what", "when", "where", "which", "while", "who",
   "whom", "why", "will", "with", "you", "your"]

/-- sklearn tokenization: lowercase, maximal word runs of length ≥ 2,
stop words removed. -/
def sklearnTokens (s : String) : List String :=
  (((tokenRunsGo [] (s.toList.map Char.toLower)).filter
      (fun t => 2 ≤ t.length)).map (fun t => String.mk t)).filter
    (fun t => ¬ t ∈ englishStopWords)

/-- Unigram and bigram features of one document (`ngram_range=(1,2)`),
with multiplicity. -/
def docFeatures (s : String) : List (List String) :=
  let t := sklearnTokens s
  t.map (fun w => [w]) ++ (t.zip t.tail).map (fun p => [p.1, p.2])

/-- The fitted vocabulary of a batch: every feature occurring in it. -/
def batchVocab (docs : List String) : List (List String) :=
  ((docs.map docFeatures).flatten).dedup

/-- Term frequency of a feature in one document. -/
def tfCount (d : String) (f : List String) : Nat :=
  (docFeatures d).count f

/-- Inner product of the tf-idf rows of documents `i` and `j` of the batch
(out-of-range indices denote the empty document).  Each feature contributes
`(idf f)^2 * tf_i f * tf_j f ≥ 0`. -/
def tfidfDot (idf : List String → ℚ) (docs : List String) (i j : Nat) : ℚ :=
  ((batchVocab docs).map (fun f =>
    (idf f * (tfCount (docs.getD i "") f : ℚ)) *
    (idf f * (tfCount (docs.getD j "") f : ℚ)))).sum

/-- `similarity_matrix[i, j] >= similarity_threshold` for the cosine
similarity of rows `i` and `j`: a zero row has cosine similarity 0, and for
the nonnegative inner products here `cos ≥ t` is equivalent to the squared
comparison below whenever `0 ≤ t` (and both sides hold trivially for
`t < 0`). -/
def simAtLeast (idf : List String → ℚ) (docs : List String) (t : ℚ)
    (i j : Nat) : Bool :=
  let dii := tfidfDot idf docs i i
  let djj := tfidfDot idf docs j j
  if dii = 0 ∨ djj = 0 then decide ((0 : ℚ) ≥ t)
  else decide (t * t * (dii * djj) ≤ tfidfDot idf docs i j * tfidfDot idf docs i j)

/-- The pair-grouping double loop of `find_similar_chunks`: for each
unprocessed seed `i` (ascending), collect every later `j` similar to it;
groups with at least two members are reported and their members marked
processed. -/
def simGroupsGo (sim : Nat → Nat → Bool) (n : Nat) :
    List Nat → List Nat → List (List Nat)
  | [], _ => []
  | i :: rest, processed =>
    if i ∈ processed then simGroupsGo sim n rest processed
    else
      let js := ((List.range n).drop (i + 1)).filter (fun j => sim i j)
      if js = [] then simGroupsGo sim n rest processed
      else (i :: js) :: simGroupsGo sim n rest (processed ++ js ++ [i])

def simGroups (sim : Nat → Nat → Bool) (n : Nat) : List (List Nat) :=
  simGroupsGo sim n (List.range n) []

/-- `Deduplicator.find_similar_chunks`: fewer than two chunks yield no
groups; a vectorization failure (empty vocabulary) is caught and yields no
groups; otherwise the grouping loop runs on the cosine-similarity tests. -/
def findSimilarChunks (idf : List String → ℚ) (chunks : List String)
    (t : ℚ) : List (List Nat) :=
  if chunks.length < 2 then []
  else if batchVocab chunks = [] then []
  else simGroups (simAtLeast idf chunks t) chunks.length

/-- `Deduplicator.deduplicate_chunks`: drop every non-first member of each
similar group (`to_remove` collects the tails of all groups), keeping the
chunks whose index is outside `to_remove`. -/
def deduplicateChunks {β : Type} (textOf : β → String)
    (idf : List String → ℚ) (chunks : List β) (t : ℚ) : List β :=
  if chunks.isEmpty then []
  else
    ((chunks.enum).filter (fun p => ¬ p.1 ∈
        (findSimilarChunks idf (chunks.map textOf) t).flatMap
          (fun g => g.drop 1))).map
      (fun p => p.2)

/-- The chunk batch of the spec's dedup-correctness property. -/
def dedupBatch : List String :=
  ["A duplicate sentence.", "A duplicate sentence.", "Something else."]

/-! ## Deduplicator, exact and fuzzy mechanisms

The MinHash signature and the LSH band-collision test are abstract
parameters (`minhash`, `collide`): `datasketch.MinHashLSH.query` reports the
stored keys whose signature collides with the query's in some band, and
`insert` raises `ValueError("The given key already exists")` when the given
key is already present (its default `check_duplication`). -/

structure FuzzyState (σ : Type) where
  seenHashes : List String
  lshKeys : List String
  lshBuckets : List (String × σ)
deriving Repr, DecidableEq

def emptyFuzzyState {σ : Type} : FuzzyState σ := ⟨[], [], []⟩

/-- `Deduplicator.is_duplicate_exact`: membership of the content hash in
`seen_hashes` (digests modelled as the content itself), inserting it when
new. -/
def isDuplicateExact {σ : Type} (st : FuzzyState σ) (text : String) :
    Bool × FuzzyState σ :=
  if text ∈ st.seenHashes then (true, st)
  else (false, { st with seenHashes := st.seenHashes ++ [text] })

def lshQuery {σ : Type} (collide : σ → σ → Bool) (st : FuzzyState σ)
    (m : σ) : List String :=
  (st.lshBuckets.filter (fun p => collide p.2 m)).map (fun p => p.1)

/-- `Deduplicator.is_duplicate_fuzzy`: query the LSH with the text's
signature; on a hit report a near-duplicate with the configured threshold;
otherwise insert under the key `doc_{len(seen_hashes)}` — `insert` raises
when that key already exists. -/
def isDuplicateFuzzy {σ : Type} (minhash : String → σ)
    (collide : σ → σ → Bool) (thr : ℚ) (st : FuzzyState σ) (text : String) :
    Except String ((Bool × ℚ) × FuzzyState σ) :=
  let m := minhash text
  if lshQuery collide st m ≠ [] then .ok ((true, thr), st)
  else
    let docId := "doc_" ++ toString st.seenHashes.length
    if docId ∈ st.lshKeys then .error "The given key already exists"
    else .ok ((false, 0),
      { st with lshKeys := st.lshKeys ++ [docId]
                lshBuckets := st.lshBuckets ++ [(docId, m)] })

/-! ## VectorStore (`app/storage/vector_store.py`)

Vectors are an abstract type `α`: FAISS `reconstruct` returns the stored
float32 values exactly and `add` stores the given values exactly, so
"bit-for-bit preservation" is equality at `α`.  `embed_batch` composed with
`normalize_L2` is the abstract per-text function `embedOne`.  The id map is
a Python dict from slot index to `{"id": ..., "metadata": ...}` (association
list; updates keep position, new keys append). -/

structure VSEntry where
  id : String
  docId : Option Nat
deriving Repr, DecidableEq

structure VectorStore (α : Type) where
  vectors : List α
  idMap : List (Nat × VSEntry)
deriving Repr, DecidableEq

def emptyStore {α : Type} : VectorStore α := ⟨[], []⟩

/-- Python dict lookup `id_map.get(k)` / `id_map[k]`. -/
def idLookup (m : List (Nat × VSEntry)) (k : Nat) : Option VSEntry :=
  (m.find? (fun p => p.1 = k)).map (fun p => p.2)

/-- Python dict assignment `m[k] = v`: overwrite in place, or append. -/
def dictSetN (m : List (Nat × VSEntry)) (k : Nat) (v : VSEntry) :
    List (Nat × VSEntry) :=
  if m.any (fun p => p.1 = k) then
    m.map (fun p => if p.1 = k then (k, v) else p)
  else m ++ [(k, v)]

/-- `metadata[i] if metadata else {}` (the call sites modelled always pass a
full-length list or `None`). -/
def metaAt (meta : Option (List (Option Nat))) (i : Nat) : Option Nat :=
  match meta with
  | none => none
  | some l => l.getD i none

/-- The id-map update loop of `add_embeddings`:
`for i, embedding_id in enumerate(embedding_ids): id_map[start_idx+i] = ...`. -/
def addIdMapGo (meta : Option (List (Option Nat))) (start : Nat) :
    Nat → List String → List (Nat × VSEntry) → List (Nat × VSEntry)
  | _, [], m => m
  | i, eid :: rest, m =>
    addIdMapGo meta start (i + 1) rest (dictSetN m (start + i) ⟨eid, metaAt meta i⟩)

/-- `VectorStore.add_embeddings`. -/
def addEmbeddings {α : Type} (embedOne : String → α) (texts ids : List String)
    (meta : Option (List (Option Nat))) (st : VectorStore α) : VectorStore α :=
  if texts = [] then st
  else
    { vectors := st.vectors ++ texts.map embedOne
      idMap := addIdMapGo meta st.vectors.length 0 ids st.idMap }

/-- The rebuild loop of `remove_embeddings` over `range(ntotal)`:
skip removed slots; append the reconstructed vector of each retained slot,
carry its id-map entry to the next free new slot. -/
def removeGo {α : Type} [Inhabited α] (vecs : List α)
    (idMap : List (Nat × VSEntry)) (toRemove : List Nat) :
    List Nat → List α × List (Nat × VSEntry) × Nat →
    List α × List (Nat × VSEntry) × Nat
  | [], acc => acc
  | i :: rest, (nv, nm, k) =>
    if i ∈ toRemove then removeGo vecs idMap toRemove rest (nv, nm, k)
    else
      let nv' := nv ++ [vecs.getD i default]
      let nm' := match idLookup idMap i with
        | some e => dictSetN nm k e
        | none => nm
      removeGo vecs idMap toRemove rest (nv', nm', k + 1)

/-- The slots collected by the first loop of `remove_embeddings`:
`for idx, item in self.id_map.items(): if item["id"] in embedding_ids`. -/
def removedSlots {α : Type} (st : VectorStore α) (ids : List String) :
    List Nat :=
  (st.idMap.filter (fun p => p.2.id ∈ ids)).map (fun p => p.1)

/-- `VectorStore.remove_embeddings`. -/
def removeEmbeddings {α : Type} [Inhabited α] (ids : List String)
    (st : VectorStore α) : VectorStore α :=
  if removedSlots st ids = [] then st
  else
    let r := removeGo st.vectors st.idMap (removedSlots st ids)
      (List.range st.vectors.length) ([], [], 0)
    { vectors := r.1, idMap := r.2.1 }

/-- `VectorStore.clear`. -/
def clearStore {α : Type} (_st : VectorStore α) : VectorStore α := emptyStore

/-- Well-formedness = the implicit slot-map invariant: the id map holds
exactly one entry per stored slot `0 .. ntotal-1`. -/
def storeWf {α : Type} (st : VectorStore α) : Prop :=
  (st.idMap.map Prod.fst).Perm (List.range st.vectors.length)

instance {α : Type} (st : VectorStore α) : Decidable (storeWf st) :=
  inferInstanceAs (Decidable (List.Perm _ _))

/-! ## Persistence (`initialize` / `load` / `save`)

The two companion files are modelled as optional contents that are either
deserializable (`ok`) or not (`corrupt`).  `save` writes straight to the
live paths: `faiss.write_index` opens and rewrites the index file in place,
and `open(id_map_path, "wb")` truncates the id-map file before
`pickle.dump` fills it; the operation trace below records those steps, a
crash being an arbitrary prefix of the trace. -/

inductive FileData (β : Type) where
  | ok (val : β)
  | corrupt
deriving Repr, DecidableEq

structure IndexFiles (α : Type) where
  indexFile : Option (FileData (List α))
  idMapFile : Option (FileData (List (Nat × VSEntry)))
deriving Repr, DecidableEq

/-- `VectorStore.load`: read the index then unpickle the map; any failure is
caught, logged and replaced by a fresh empty index. -/
def loadStore {α : Type} (fs : IndexFiles α) : VectorStore α :=
  match fs.indexFile, fs.idMapFile with
  | some (.ok vs), some (.ok m) => ⟨vs, m⟩
  | _, _ => emptyStore

/-- `VectorStore.initialize`: load when both files exist, else start empty. -/
def initializeStore {α : Type} (fs : IndexFiles α) : VectorStore α :=
  if fs.indexFile.isSome ∧ fs.idMapFile.isSome then loadStore fs else emptyStore

/-- The persisted files are present, deserialize, but disagree: the id map
references a slot the vector store does not have. -/
def mutuallyInconsistent {α : Type} (fs : IndexFiles α) : Prop :=
  ∃ vs m, fs.indexFile = some (.ok vs) ∧ fs.idMapFile = some (.ok m) ∧
    ∃ p ∈ m, vs.length ≤ p.1

/-- One file-system step of `save()`: beginning a write leaves the target
unreadable until the matching completion step. -/
inductive SaveOp (α : Type) where
  | beginIndexWrite
  | endIndexWrite (v : List α)
  | truncIdMap
  | writeIdMap (m : List (Nat × VSEntry))

def applySaveOp {α : Type} (fs : IndexFiles α) : SaveOp α → IndexFiles α
  | .beginIndexWrite => { fs with indexFile := some .corrupt }
  | .endIndexWrite v => { fs with indexFile := some (.ok v) }
  | .truncIdMap => { fs with idMapFile := some .corrupt }
  | .writeIdMap m => { fs with idMapFile := some (.ok m) }

def applySaveOps {α : Type} (fs : IndexFiles α) (ops : List (SaveOp α)) :
    IndexFiles α :=
  ops.foldl applySaveOp fs

/-- The file-system trace of `VectorStore.save`: write the index to its live
path, then truncate and rewrite the id-map file at its live path.  No
temporary file and no rename appears in the source. -/
def saveOps {α : Type} (st : VectorStore α) : List (SaveOp α) :=
  [.beginIndexWrite, .endIndexWrite st.vectors, .truncIdMap,
   .writeIdMap st.idMap]

/-! ## HybridRetriever score fusion (`app/core/retrieval.py`)

`combined_scores` is a Python dict keyed by embedding id;
`sorted(..., key=lambda x: x[1], reverse=True)` is the unique stable
descending reordering by score, realized below by a stable insertion
sort. -/

def qLookup (m : List (String × ℚ)) (k : String) : Option ℚ :=
  (m.find? (fun p => p.1 = k)).map (fun p => p.2)

def dictSetQ (m : List (String × ℚ)) (k : String) (v : ℚ) :
    List (String × ℚ) :=
  if m.any (fun p => p.1 = k) then
    m.map (fun p => if p.1 = k then (k, v) else p)
  else m ++ [(k, v)]

/-- One step of the BM25 accumulation pass: the lexical score is capped at
1.0, weighted, and added to an existing entry or inserted as a new one. -/
def lexStep (bw : ℚ) (m : List (String × ℚ)) (p : String × ℚ) :
    List (String × ℚ) :=
  match qLookup m p.1 with
  | some s => dictSetQ m p.1 (s + bw * min p.2 1)
  | none => dictSetQ m p.1 (bw * min p.2 1)

/-- The two accumulation passes of `HybridRetriever.search`: dense results
enter weighted by `vector_weight`; lexical (BM25) results are capped at 1.0,
weighted by `bm25_weight` and added to an existing entry or inserted. -/
def combinedScores (vw bw : ℚ) (dense lex : List (String × ℚ)) :
    List (String × ℚ) :=
  lex.foldl (lexStep bw) (dense.foldl (fun m p => dictSetQ m p.1 (vw * p.2)) [])

/-- Stable descending insertion by score: an element passes every strictly
greater or equal earlier score, landing before later-inserted ties. -/
def insertByDesc (x : String × ℚ) : List (String × ℚ) → List (String × ℚ)
  | [] => [x]
  | y :: ys => if y.2 ≤ x.2 then x :: y :: ys else y :: insertByDesc x ys

def sortByScoreDesc : List (String × ℚ) → List (String × ℚ)
  | [] => []
  | x :: xs => insertByDesc x (sortByScoreDesc xs)

/-- The fused, descending-sorted candidate list of `HybridRetriever.search`
(before candidate resolution and optional reranking). -/
def hybridFuse (vw bw : ℚ) (dense lex : List (String × ℚ)) :
    List (String × ℚ) :=
  sortByScoreDesc (combinedScores vw bw dense lex)

/-! ## DocumentStore and IngestionPipeline
(`app/storage/document_store.py`, `app/ingest/pipeline.py`)

Only the columns the engine's control flow reads are modelled
(`id`, `file_path`, `checksum` for documents; the chunk rows as stored by
`add_chunks`).  SHA-256 digests are the hashed content itself.  The text
parser collaborator returns `{"text": raw}` for the files considered;
`language detection`, logging and the final `save()` do not affect the
state modelled here. -/

structure DocRec where
  id : Nat
  filePath : String
  checksum : List Char
deriving Repr, DecidableEq

structure ChunkRow where
  documentId : Nat
  chunkIndex : Nat
  text : List Char
  startChar : Int
  endChar : Int
  embeddingId : Option String
deriving Repr, DecidableEq

structure PipelineState (α : Type) where
  docs : List DocRec
  nextDocId : Nat
  chunkRows : List ChunkRow
  vs : VectorStore α
deriving Repr, DecidableEq

def emptyPipelineState {α : Type} : PipelineState α :=
  ⟨[], 1, [], emptyStore⟩

/-- `DocumentStore.compute_checksum` (collision-free fingerprint model). -/
def computeChecksum (content : List Char) : List Char := content

/-- `DocumentStore.get_document`: lookup by file path. -/
def getDocument {α : Type} (st : PipelineState α) (path : String) :
    Option DocRec :=
  st.docs.find? (fun d => d.filePath = path)

/-- `DocumentStore.add_document`: update the existing record and delete its
chunks when the checksum changed; return it untouched when unchanged;
otherwise insert a fresh record. -/
def addDocument {α : Type} (path : String) (content : List Char)
    (st : PipelineState α) : DocRec × PipelineState α :=
  match getDocument st path with
  | some doc =>
    if doc.checksum ≠ computeChecksum content then
      let doc' := { doc with checksum := computeChecksum content }
      (doc', { st with
        docs := st.docs.map (fun d => if d.id = doc.id then doc' else d)
        chunkRows := st.chunkRows.filter (fun r => r.documentId ≠ doc.id) })
    else (doc, st)
  | none =>
    let doc : DocRec := ⟨st.nextDocId, path, computeChecksum content⟩
    (doc, { st with docs := st.docs ++ [doc], nextDocId := st.nextDocId + 1 })

/-- `DocumentStore.add_chunks`: append one row per chunk, `chunk_index`
being the enumeration position. -/
def addChunks {α : Type} (docId : Nat)
    (chunks : List (ChunkOut × Option String)) (st : PipelineState α) :
    PipelineState α :=
  { st with chunkRows := st.chunkRows ++
      (chunks.enum).map (fun p =>
        { documentId := docId, chunkIndex := p.1, text := p.2.1.text
          startChar := p.2.1.startChar, endChar := p.2.1.endChar
          embeddingId := p.2.2 }) }

/-- Number of stored passages of a document. -/
def docChunkCount {α : Type} (st : PipelineState α) (docId : Nat) : Nat :=
  (st.chunkRows.filter (fun r => r.documentId = docId)).length

inductive IngestStatus where
  | success
  | skipped
  | unchanged
  | error
deriving Repr, DecidableEq

structure IngestResult where
  status : IngestStatus
  documentId : Option Nat := none
  chunksCount : Option Nat := none
deriving Repr, DecidableEq

/-- `IngestionPipeline.ingest_file` for a file whose parser is the plain
text parser: `fileText` is the parsed raw text (`none`: the file does not
exist).  Note the unchanged-skip compares the stored checksum — computed
from the preprocessed text at insertion — against the checksum of the raw
parsed text.  The chunker fuel is consumed only in size-based mode; `none`
propagates its non-termination. -/
def ingestFile {α : Type} (cfg : ChunkConfig) (fuel : Nat)
    (embedOne : String → α) (idf : List String → ℚ)
    (fileText : Option (List Char)) (path : String) (force : Bool)
    (st : PipelineState α) : Option (IngestResult × PipelineState α) :=
  match fileText with
  | none => some ({ status := .error }, st)
  | some raw =>
    if raw = [] then some ({ status := .skipped }, st)
    else
      let skipUnchanged : Bool :=
        if force then false
        else match getDocument st path with
          | some doc => doc.checksum = computeChecksum raw
          | none => false
      if skipUnchanged then some ({ status := .unchanged }, st)
      else
        let processed := preprocess raw
        let ds := addDocument path processed st
        let doc := ds.1
        let st1 := ds.2
        match chunkText cfg fuel processed with
        | none => none
        | some chunks0 =>
          let chunks := deduplicateChunks (fun c => String.mk c.text) idf
            chunks0 (9/10)
          if chunks = [] then some ({ status := .error }, st1)
          else
            let texts := chunks.map (fun c => String.mk c.text)
            let eids := (List.range chunks.length).map (fun i =>
              "doc_" ++ toString doc.id ++ "_chunk_" ++ toString i)
            let vs' := addEmbeddings embedOne texts eids
              (some (chunks.map (fun _ => some doc.id))) st1.vs
            let st3 := addChunks doc.id (chunks.zip (eids.map some))
              { st1 with vs := vs' }
            some ({ status := .success, documentId := some doc.id
                    chunksCount := some chunks.length }, st3)

/-- A concrete two-vector, two-entry store used by witness theorems. -/
def sampleStore : VectorStore ℚ :=
  ⟨[(1 : ℚ), 2], [(0, ⟨"a", none⟩), (1, ⟨"b", none⟩)]⟩

/-! ### Association-list lemmas for the fusion dictionary -/

theorem qLookup_cons (p : String × ℚ) (m : List (String × ℚ)) (q : String) :
    qLookup (p :: m) q = if p.1 = q then some p.2 else qLookup m q := by
  by_cases h : p.1 = q <;> simp [qLookup, List.find?_cons, h]

theorem qLookup_eq_none_iff (m : List (String × ℚ)) (q : String) :
    qLookup m q = none ↔ q ∉ m.map Prod.fst := by
  induction m with
  | nil => simp [qLookup]
  | cons p t ih =>
    rw [qLookup_cons, List.map_cons]
    by_cases h : p.1 = q
    · subst h
      simp
    · rw [if_neg h, ih, List.mem_cons]
      constructor
      · rintro hn (he | hm)
        · exact h he.symm
        · exact hn hm
      · exact fun hn hm => hn (Or.inr hm)

theorem mem_of_qLookup_eq_some {m : List (String × ℚ)} {q : String} {v : ℚ}
    (h : qLookup m q = some v) : (q, v) ∈ m := by
  induction m with
  | nil => simp [qLookup] at h
  | cons p t ih =>
    rw [qLookup_cons] at h
    by_cases hk : p.1 = q
    · rw [if_pos hk] at h
      injection h with h2
      have hp : p = (q, v) := by
        obtain ⟨a, b⟩ := p
        simp only at hk h2
        rw [hk, h2]
      rw [hp]
      exact List.mem_cons_self _ _
    · rw [if_neg hk] at h
      exact List.mem_cons_of_mem _ (ih h)

theorem qLookup_eq_some_of_mem {m : List (String × ℚ)} {q : String} {v : ℚ}
    (nd : (m.map Prod.fst).Nodup) (h : (q, v) ∈ m) : qLookup m q = some v := by
  induction m with
  | nil => simp at h
  | cons p t ih =>
    rw [List.map_cons, List.nodup_cons] at nd
    rcases List.mem_cons.mp h with h | h
    · rw [← h, qLookup_cons, if_pos rfl]
    · have hk : p.1 ≠ q := by
        intro he
        exact nd.1 (he ▸ List.mem_map.mpr ⟨(q, v), h, rfl⟩)
      rw [qLookup_cons, if_neg hk]
      exact ih nd.2 h

theorem dictSetQ_any_iff (m : List (String × ℚ)) (k : String) :
    (m.any fun p => p.1 = k) = true ↔ k ∈ m.map Prod.fst := by
  rw [List.any_eq_true]
  constructor
  · rintro ⟨p, hp, he⟩
    exact List.mem_map.mpr ⟨p, hp, of_decide_eq_true he⟩
  · intro hm
    obtain ⟨p, hp, he⟩ := List.mem_map.mp hm
    exact ⟨p, hp, decide_eq_true he⟩

theorem dictSetQ_of_not_mem {m : List (String × ℚ)} {k : String} (v : ℚ)
    (h : k ∉ m.map Prod.fst) : dictSetQ m k v = m ++ [(k, v)] := by
  rw [dictSetQ, if_neg]
  exact fun hc => h ((dictSetQ_any_iff m k).mp hc)

theorem dictSetQ_of_mem {m : List (String × ℚ)} {k : String} (v : ℚ)
    (h : k ∈ m.map Prod.fst) :
    dictSetQ m k v = m.map fun p => if p.1 = k then (k, v) else p := by
  rw [dictSetQ, if_pos ((dictSetQ_any_iff m k).mpr h)]

theorem dictSetQ_keys_of_mem {m : List (String × ℚ)} {k : String} (v : ℚ)
    (h : k ∈ m.map Prod.fst) :
    (dictSetQ m k v).map Prod.fst = m.map Prod.fst := by
  rw [dictSetQ_of_mem v h, List.map_map]
  refine List.map_congr_left fun p _ => ?_
  by_cases hp : p.1 = k <;> simp [hp]

theorem dictSetQ_keys_of_not_mem {m : List (String × ℚ)} {k : String} (v : ℚ)
    (h : k ∉ m.map Prod.fst) :
    (dictSetQ m k v).map Prod.fst = m.map Prod.fst ++ [k] := by
  rw [dictSetQ_of_not_mem v h, List.map_append]
  rfl

theorem qLookup_append_single_self {m : List (String × ℚ)} {k : String}
    (v : ℚ) (h : k ∉ m.map Prod.fst) :
    qLookup (m ++ [(k, v)]) k = some v := by
  induction m with
  | nil => simp [qLookup_cons]
  | cons p t ih =>
    rw [List.map_cons, List.mem_cons] at h
    push_neg at h
    rw [List.cons_append, qLookup_cons, if_neg (fun he => h.1 he.symm)]
    exact ih (by
      intro hc
      exact h.2 hc)

theorem qLookup_append_single_other {m : List (String × ℚ)} {k q : String}
    (v : ℚ) (h : k ≠ q) :
    qLookup (m ++ [(k, v)]) q = qLookup m q := by
  induction m with
  | nil => simp [qLookup, qLookup_cons, h]
  | cons p t ih =>
    rw [List.cons_append, qLookup_cons, qLookup_cons, ih]

theorem qLookup_map_set_self {k : String} (v : ℚ) :
    ∀ (m : List (String × ℚ)), k ∈ m.map Prod.fst →
      qLookup (m.map fun p => if p.1 = k then (k, v) else p) k = some v := by
  intro m
  induction m with
  | nil => simp
  | cons p t ih =>
    intro h
    by_cases hp : p.1 = k
    · rw [List.map_cons, if_pos hp, qLookup_cons, if_pos rfl]
    · rw [List.map_cons, if_neg hp, qLookup_cons, if_neg hp]
      refine ih ?_
      rw [List.map_cons, List.mem_cons] at h
      rcases h with h | h
      · exact absurd h.symm hp
      · exact h

theorem qLookup_map_set_other {k q : String} (v : ℚ) (hq : k ≠ q) :
    ∀ (m : List (String × ℚ)),
      qLookup (m.map fun p => if p.1 = k then (k, v) else p) q = qLookup m q := by
  intro m
  induction m with
  | nil => rfl
  | cons p t ih =>
    by_cases hp : p.1 = k
    · rw [List.map_cons, if_pos hp, qLookup_cons, qLookup_cons, ih]
      have h1 : ((k, v) : String × ℚ).1 = q ↔ p.1 = q := by
        simp only [hp]
      rw [if_neg (by simpa using hq), if_neg (by rw [hp]; exact hq)]
    · rw [List.map_cons, if_neg hp, qLookup_cons, qLookup_cons, ih]

theorem qLookup_dictSetQ_self (m : List (String × ℚ)) (k : String) (v : ℚ) :
    qLookup (dictSetQ m k v) k = some v := by
  by_cases h : k ∈ m.map Prod.fst
  · rw [dictSetQ_of_mem v h]
    exact qLookup_map_set_self v m h
  · rw [dictSetQ_of_not_mem v h]
    exact qLookup_append_single_self v h

theorem qLookup_dictSetQ_other (m : List (String × ℚ)) {k q : String}
    (v : ℚ) (hq : k ≠ q) :
    qLookup (dictSetQ m k v) q = qLookup m q := by
  by_cases h : k ∈ m.map Prod.fst
  · rw [dictSetQ_of_mem v h]
    exact qLookup_map_set_other v hq m
  · rw [dictSetQ_of_not_mem v h]
    exact qLookup_append_single_other v hq

/-! ### The dense pass, the lexical pass, and the stable sort -/

theorem foldl_dictSetQ_spec (f : String × ℚ → ℚ) :
    ∀ (l acc : List (String × ℚ)), (l.map Prod.fst).Nodup →
      (∀ k ∈ l.map Prod.fst, k ∉ acc.map Prod.fst) →
      l.foldl (fun m p => dictSetQ m p.1 (f p)) acc
        = acc ++ l.map fun p => (p.1, f p) := by
  intro l
  induction l with
  | nil => intro acc _ _; simp
  | cons p t ih =>
    intro acc nd hdisj
    rw [List.map_cons, List.nodup_cons] at nd
    have h2 : ∀ k ∈ t.map Prod.fst,
        k ∉ (acc ++ [(p.1, f p)]).map Prod.fst := by
      intro k hk
      rw [List.map_append, List.mem_append]
      push_neg
      refine ⟨hdisj k (by rw [List.map_cons]; exact List.mem_cons_of_mem _ hk), ?_⟩
      simp only [List.map_cons, List.map_nil, List.mem_singleton]
      exact fun he => nd.1 (he ▸ hk)
    rw [List.foldl_cons,
      dictSetQ_of_not_mem (f p) (hdisj p.1 (by rw [List.map_cons]; exact List.mem_cons_self _ _)),
      ih _ nd.2 h2, List.map_cons, List.append_assoc]
    rfl

theorem lexStep_lookup_self (bw : ℚ) (m : List (String × ℚ))
    (p : String × ℚ) :
    qLookup (lexStep bw m p) p.1 = some
      (match qLookup m p.1 with
       | some a => a + bw * min p.2 1
       | none => bw * min p.2 1) := by
  rw [lexStep]
  cases h : qLookup m p.1 <;> simp [h, qLookup_dictSetQ_self]

theorem lexStep_lookup_other (bw : ℚ) (m : List (String × ℚ))
    (p : String × ℚ) {q : String} (hq : p.1 ≠ q) :
    qLookup (lexStep bw m p) q = qLookup m q := by
  rw [lexStep]
  cases h : qLookup m p.1 <;> simp [h, qLookup_dictSetQ_other _ _ hq]

theorem lexFold_lookup (bw : ℚ) :
    ∀ (lex acc : List (String × ℚ)) (q : String),
      (lex.map Prod.fst).Nodup →
      qLookup (lex.foldl (lexStep bw) acc) q =
        match qLookup lex q with
        | some s =>
          match qLookup acc q with
          | some a => some (a + bw * min s 1)
          | none => some (bw * min s 1)
        | none => qLookup acc q := by
  intro lex
  induction lex with
  | nil => intro acc q _; rfl
  | cons p t ih =>
    intro acc q nd
    rw [List.map_cons, List.nodup_cons] at nd
    rw [List.foldl_cons, ih _ _ nd.2, qLookup_cons]
    by_cases hq : p.1 = q
    · have ht : qLookup t q = none :=
        (qLookup_eq_none_iff t q).mpr (hq ▸ nd.1)
      rw [ht, if_pos hq]
      have hs := lexStep_lookup_self bw acc p
      rw [hq] at hs
      rw [hs]
      cases qLookup acc q <;> rfl
    · rw [if_neg hq, lexStep_lookup_other bw acc p hq]

theorem lexStep_keys_nodup (bw : ℚ) (m : List (String × ℚ))
    (p : String × ℚ) (nd : (m.map Prod.fst).Nodup) :
    ((lexStep bw m p).map Prod.fst).Nodup := by
  rw [lexStep]
  cases h : qLookup m p.1 with
  | some a =>
    have hm : p.1 ∈ m.map Prod.fst :=
      List.mem_map.mpr ⟨(p.1, a), mem_of_qLookup_eq_some h, rfl⟩
    rw [dictSetQ_keys_of_mem _ hm]
    exact nd
  | none =>
    have hm : p.1 ∉ m.map Prod.fst := (qLookup_eq_none_iff m p.1).mp h
    rw [dictSetQ_keys_of_not_mem _ hm]
    simp [List.nodup_append, nd, hm]

theorem lexFold_keys_nodup (bw : ℚ) :
    ∀ (lex acc : List (String × ℚ)), (acc.map Prod.fst).Nodup →
      ((lex.foldl (lexStep bw) acc).map Prod.fst).Nodup := by
  intro lex
  induction lex with
  | nil => intro acc nd; exact nd
  | cons p t ih =>
    intro acc nd
    exact ih _ (lexStep_keys_nodup bw acc p nd)

theorem insertByDesc_perm (x : String × ℚ) (l : List (String × ℚ)) :
    List.Perm (insertByDesc x l) (x :: l) := by
  induction l with
  | nil => exact List.Perm.refl _
  | cons y t ih =>
    simp only [insertByDesc]
    by_cases h : y.2 ≤ x.2
    · rw [if_pos h]
    · rw [if_neg h]
      exact (ih.cons y).trans (List.Perm.swap x y t)

theorem sortByScoreDesc_perm (l : List (String × ℚ)) :
    List.Perm (sortByScoreDesc l) l := by
  induction l with
  | nil => exact List.Perm.refl _
  | cons x t ih =>
    exact (insertByDesc_perm x (sortByScoreDesc t)).trans (ih.cons x)

theorem insertByDesc_sorted (x : String × ℚ) {l : List (String × ℚ)}
    (h : List.Sorted (fun a b : String × ℚ => b.2 ≤ a.2) l) :
    List.Sorted (fun a b : String × ℚ => b.2 ≤ a.2) (insertByDesc x l) := by
  induction l with
  | nil => simp [insertByDesc]
  | cons y t ih =>
    rw [List.sorted_cons] at h
    simp only [insertByDesc]
    by_cases hxy : y.2 ≤ x.2
    · rw [if_pos hxy]
      refine List.sorted_cons.mpr ⟨?_, List.sorted_cons.mpr h⟩
      intro z hz
      rcases List.mem_cons.mp hz with hz | hz
      · exact hz ▸ hxy
      · exact le_trans (h.1 z hz) hxy
    · rw [if_neg hxy]
      refine List.sorted_cons.mpr ⟨?_, ih h.2⟩
      intro z hz
      rcases List.mem_cons.mp ((insertByDesc_perm x t).mem_iff.mp hz) with hz | hz
      · exact hz ▸ le_of_not_le hxy
      · exact h.1 z hz

theorem sortByScoreDesc_sorted (l : List (String × ℚ)) :
    List.Sorted (fun a b : String × ℚ => b.2 ≤ a.2) (sortByScoreDesc l) := by
  induction l with
  | nil => simp [sortByScoreDesc]
  | cons x t ih => exact insertByDesc_sorted x ih

theorem qLookup_eq_of_perm {l l' : List (String × ℚ)} (h : List.Perm l l')
    (nd : (l.map Prod.fst).Nodup) (q : String) :
    qLookup l q = qLookup l' q := by
  have nd' : (l'.map Prod.fst).Nodup := ((h.map Prod.fst).nodup_iff).mp nd
  cases hl : qLookup l q with
  | none =>
    rw [qLookup_eq_none_iff] at hl
    rw [eq_comm, qLookup_eq_none_iff]
    exact fun hc => hl ((h.map Prod.fst).mem_iff.mpr hc)
  | some v =>
    rw [eq_comm]
    exact qLookup_eq_some_of_mem nd' (h.mem_iff.mp (mem_of_qLookup_eq_some hl))

/-! ## Claim theorems -/

/-- C4 (amended): `initialize`/`load` never throws and falls back to a fresh
empty index exactly when a persisted file is missing or fails to
deserialize; mutually inconsistent but readable files are not in this
fallback (see the counterexample below). -/
theorem load_fallback_on_missing_or_corrupt {α : Type} (fs : IndexFiles α)
    (h : fs.indexFile = none ∨ fs.idMapFile = none ∨
         fs.indexFile = some .corrupt ∨ fs.idMapFile = some .corrupt) :
    initializeStore fs = emptyStore := by
  obtain ⟨fi, fm⟩ := fs
  rcases h with h | h | h | h
  · subst h; simp [initializeStore]
  · subst h; simp [initializeStore]
  · subst h
    rcases fm with _ | fm
    · simp [initializeStore]
    · rcases fm with v | _ <;> simp [initializeStore, loadStore]
  · subst h
    rcases fi with _ | fi
    · simp [initializeStore]
    · rcases fi with v | _ <;> simp [initializeStore, loadStore]

/-- Witness for the C4 theorem at a concrete missing-files state. -/
theorem load_fallback_witness :
    initializeStore (α := ℚ) ⟨none, none⟩ = emptyStore :=
  load_fallback_on_missing_or_corrupt _ (Or.inl rfl)

/-- C4 (counterexample): a present, deserializable, mutually inconsistent
file pair — the id map references slot 5 of a 1-vector store — is loaded
as-is, not detected and discarded. -/
theorem initialize_keeps_inconsistent_files :
    mutuallyInconsistent (α := ℚ)
      ⟨some (.ok [1]), some (.ok [(5, ⟨"x", none⟩)])⟩ ∧
    ¬ initializeStore (α := ℚ)
      ⟨some (.ok [1]), some (.ok [(5, ⟨"x", none⟩)])⟩ = emptyStore := by
  refine ⟨⟨[1], [(5, ⟨"x", none⟩)], rfl, rfl,
    ⟨(5, ⟨"x", none⟩), by decide, by decide⟩⟩, by decide⟩

/-- C5 (counterexample): interrupting `save()` right after the index write
begins destroys the previously persisted index — the crash state loads to
neither the previous contents nor the new ones. -/
theorem save_interrupt_loses_previous_index :
    ¬ (initializeStore
        (applySaveOps (⟨some (.ok [1]), some (.ok [(0, ⟨"a", none⟩)])⟩ : IndexFiles ℚ)
          ((saveOps (⟨[2], [(0, ⟨"a", none⟩)]⟩ : VectorStore ℚ)).take 1))
        = initializeStore (⟨some (.ok [1]), some (.ok [(0, ⟨"a", none⟩)])⟩ : IndexFiles ℚ) ∨
       initializeStore
        (applySaveOps (⟨some (.ok [1]), some (.ok [(0, ⟨"a", none⟩)])⟩ : IndexFiles ℚ)
          ((saveOps (⟨[2], [(0, ⟨"a", none⟩)]⟩ : VectorStore ℚ)).take 1))
        = ⟨[2], [(0, ⟨"a", none⟩)]⟩) := by
  decide

/-- C5 (amended): `save()` writes both companion files in place at their
live paths, with no temporary file and no rename in its trace: the complete
trace persists the saved state, while a crash just after the index write
begins, or between the id-map truncation and its rewrite, leaves files that
load back as the empty index — the previous persisted contents are lost. -/
theorem save_writes_live_files_directly {α : Type} (st : VectorStore α)
    (prev : IndexFiles α) :
    initializeStore (applySaveOps prev (saveOps st)) = ⟨st.vectors, st.idMap⟩ ∧
    initializeStore (applySaveOps prev ((saveOps st).take 1)) = emptyStore ∧
    initializeStore (applySaveOps prev ((saveOps st).take 3)) = emptyStore := by
  obtain ⟨fi, fm⟩ := prev
  refine ⟨rfl, ?_, rfl⟩
  rcases fm with _ | fm
  · rfl
  · rcases fm with v | _ <;> rfl

/-- C7 (code bug): with `chunk_overlap = chunk_size = 5`,
`min_chunk_size = 10` and both boundary flags off, `chunk_text` on twelve
characters never terminates: every window is discarded, the
`(start <= chunks[-1]["start"]) if chunks else 0` guard is the falsy
constant `0`, and `start` returns to `0` on every iteration — no amount of
fuel completes the loop. -/
theorem chunker_size_loop_diverges :
    ∀ fuel, chunkText ⟨5, 5, 10, false, false⟩ fuel (List.replicate 12 'a')
      = none := by
  have key : ∀ fuel, sizeLoop ⟨5, 5, 10, false, false⟩
      (cleanText (List.replicate 12 'a')) fuel 0 [] = none := by
    intro fuel
    induction fuel with
    | zero => rfl
    | succ n ih => exact ih
  intro fuel
  have hg : ¬ (List.replicate 12 'a' = ([] : List Char) ∨
      (stripList (List.replicate 12 'a')).length < 10) := by decide
  simp only [chunkText]
  rw [if_neg hg]
  exact (congrArg _ (key fuel)).trans rfl

/-- C8 (code bug): on a fresh deduplicator, two consecutive
`is_duplicate_fuzzy` calls with unrelated texts both derive the LSH key
`doc_0` from the untouched exact-hash set, and the second insertion raises
`ValueError("The given key already exists")`.  The LSH is instantiated at
signature granularity (`minhash` the identity, collision = signature
equality), which is the behaviour of `datasketch`'s 128-permutation MinHash
on these two texts: their signatures share no band. -/
theorem fuzzy_second_insert_raises :
    isDuplicateFuzzy (σ := String) (fun t => t) (fun a b => a == b) (85/100)
        emptyFuzzyState "alpha bravo"
      = .ok ((false, 0), ⟨[], ["doc_0"], [("doc_0", "alpha bravo")]⟩) ∧
    isDuplicateFuzzy (σ := String) (fun t => t) (fun a b => a == b) (85/100)
        ⟨[], ["doc_0"], [("doc_0", "alpha bravo")]⟩ "charlie delta"
      = .error "The given key already exists" :=
  ⟨rfl, rfl⟩

/-- C6 (counterexample): with `chunk_size = 9`, zero overlap and
`min_chunk_size = 1`, the text `"abcd. efgh."` yields the single chunk
`"abcd efgh."` of length 10 > 9, although its two sentences (lengths 4 and
5) each fit in 9: the size check sums sentence lengths without the joining
spaces. -/
theorem sentence_chunk_exceeds_chunk_size :
    ((chunkText ⟨9, 0, 1, true, true⟩ 0 "abcd. efgh.".toList).getD []).map
        (fun c => c.text) = ["abcd efgh.".toList] ∧
    9 < "abcd efgh.".toList.length ∧
    (splitSentences (cleanText "abcd. efgh.".toList)).map stripList
      = ["abcd".toList, "efgh.".toList] ∧
    ∀ s ∈ ["abcd".toList, "efgh.".toList], s.length ≤ 9 := by
  decide

set_option maxRecDepth 8000 in
/-- C1 (code bug): re-ingesting a byte-identical file is not a no-op
whenever preprocessing changes its text.  The raw text below contains a
double space, so the stored checksum (of the preprocessed text) never
matches the checksum the skip-check computes (of the raw text): the second
`ingest_file` with `force = false` reports `success` instead of
`unchanged`, doubles the document's stored passage count from 1 to 2 and
grows the dense index from 1 to 2 vectors. -/
theorem reingest_unchanged_file_grows_index :
    ((ingestFile (α := ℚ) {} 0 (fun _ => 0) (fun _ => 1)
        (some "The quick  brown fox jumps over the lazy dog while seventeen zebras watch quietly from behind the old wooden fence again and again".toList)
        "a.txt" false emptyPipelineState).map
      (fun p => (p.1.status, p.2.vs.vectors.length, docChunkCount p.2 1)))
      = some (.success, 1, 1) ∧
    (((ingestFile (α := ℚ) {} 0 (fun _ => 0) (fun _ => 1)
        (some "The quick  brown fox jumps over the lazy dog while seventeen zebras watch quietly from behind the old wooden fence again and again".toList)
        "a.txt" false emptyPipelineState).bind
      (fun p => ingestFile (α := ℚ) {} 0 (fun _ => 0) (fun _ => 1)
        (some "The quick  brown fox jumps over the lazy dog while seventeen zebras watch quietly from behind the old wooden fence again and again".toList)
        "a.txt" false p.2)).map
      (fun p => (p.1.status, p.2.vs.vectors.length, docChunkCount p.2 1)))
      = some (.success, 2, 2) := by
  decide

theorem qLookup_map_value (f : String × ℚ → ℚ) (m : List (String × ℚ))
    (q : String) :
    qLookup (m.map fun p => (p.1, f p)) q
      = (m.find? fun p => p.1 = q).map f := by
  induction m with
  | nil => rfl
  | cons p t ih =>
    by_cases h : p.1 = q
    · rw [List.map_cons, qLookup_cons, if_pos h,
        List.find?_cons_of_pos _ (by simpa using h)]
      rfl
    · rw [List.map_cons, qLookup_cons, if_neg h,
        List.find?_cons_of_neg _ (by simpa using h), ih]

/-- C3: fusion arithmetic of `HybridRetriever.search`.  The fused candidate
list is sorted by descending fused score, and each id's fused score is
`vector_weight × dense_score` when the id came from the dense search plus
`bm25_weight × min(lexical_score, 1.0)` when it came from the lexical
search — an id absent from one source incurs no penalty, and an id absent
from both is absent from the output. -/
theorem hybrid_fusion_score (vw bw : ℚ) (dense lex : List (String × ℚ))
    (hd : (dense.map Prod.fst).Nodup) (hl : (lex.map Prod.fst).Nodup) :
    List.Sorted (fun a b : String × ℚ => b.2 ≤ a.2)
      (hybridFuse vw bw dense lex) ∧
    ∀ q, qLookup (hybridFuse vw bw dense lex) q =
      match qLookup dense q, qLookup lex q with
      | some d, some s => some (vw * d + bw * min s 1)
      | some d, none => some (vw * d)
      | none, some s => some (bw * min s 1)
      | none, none => none := by
  have hm1 : dense.foldl (fun m p => dictSetQ m p.1 (vw * p.2)) [] =
      dense.map (fun p => (p.1, vw * p.2)) := by
    rw [foldl_dictSetQ_spec (fun p => vw * p.2) dense [] hd (by simp),
      List.nil_append]
  have hm1keys :
      ((dense.foldl (fun m p => dictSetQ m p.1 (vw * p.2)) []).map
        Prod.fst).Nodup := by
    rw [hm1, List.map_map]
    exact hd
  have hndC : ((combinedScores vw bw dense lex).map Prod.fst).Nodup := by
    rw [combinedScores]
    exact lexFold_keys_nodup bw lex _ hm1keys
  have hm1look : ∀ q,
      qLookup (dense.foldl (fun m p => dictSetQ m p.1 (vw * p.2)) []) q =
        (qLookup dense q).map (fun d => vw * d) := by
    intro q
    rw [hm1, qLookup_map_value (fun p => vw * p.2) dense q,
      show qLookup dense q = (dense.find? fun p => p.1 = q).map Prod.snd
        from rfl]
    cases dense.find? (fun p => p.1 = q) <;> rfl
  constructor
  · exact sortByScoreDesc_sorted _
  · intro q
    have hperm := sortByScoreDesc_perm (combinedScores vw bw dense lex)
    have hndS : ((sortByScoreDesc (combinedScores vw bw dense lex)).map
        Prod.fst).Nodup := ((hperm.map Prod.fst).nodup_iff).mpr hndC
    have hs : qLookup (hybridFuse vw bw dense lex) q
        = qLookup (combinedScores vw bw dense lex) q := by
      rw [hybridFuse]
      exact qLookup_eq_of_perm hperm hndS q
    rw [hs, combinedScores, lexFold_lookup bw lex _ q hl, hm1look q]
    rcases hD : qLookup dense q with _ | d <;>
      rcases hL : qLookup lex q with _ | s <;> rfl

/-- Witness for the C3 theorem at the spec's concrete example: dense score
0.8 for X only, lexical score 0.6 for Y only, weights 0.7/0.3 — fused(X) =
0.56, fused(Y) = 0.18, and X ranks above Y. -/
theorem hybrid_fusion_score_witness :
    ((([("X", (8 : ℚ)/10)] : List (String × ℚ)).map Prod.fst).Nodup ∧
      (([("Y", (6 : ℚ)/10)] : List (String × ℚ)).map Prod.fst).Nodup) ∧
    qLookup (hybridFuse (7/10) (3/10) [("X", 8/10)] [("Y", 6/10)]) "X"
      = some (56/100) ∧
    qLookup (hybridFuse (7/10) (3/10) [("X", 8/10)] [("Y", 6/10)]) "Y"
      = some (18/100) ∧
    hybridFuse (7/10) (3/10) [("X", 8/10)] [("Y", 6/10)]
      = [("X", 56/100), ("Y", 18/100)] := by
  have h := hybrid_fusion_score (7/10) (3/10) [("X", 8/10)] [("Y", 6/10)]
    (by decide) (by decide)
  refine ⟨⟨by decide, by decide⟩, ?_, ?_, ?_⟩
  · rw [h.2 "X",
      show qLookup [("X", (8 : ℚ)/10)] "X" = some (8/10) from rfl,
      show qLookup [("Y", (6 : ℚ)/10)] "X" = none from rfl]
    norm_num
  · rw [h.2 "Y",
      show qLookup [("X", (8 : ℚ)/10)] "Y" = none from rfl,
      show qLookup [("Y", (6 : ℚ)/10)] "Y" = some (6/10) from rfl]
    norm_num [min_def]
  · norm_num [hybridFuse, combinedScores, lexStep, qLookup_cons, qLookup,
      dictSetQ, sortByScoreDesc, insertByDesc, min_def]

/-! ### Sentence-chunker lemmas -/

theorem sizeSum_nil : sizeSum [] = 0 := rfl

theorem sizeSum_cons (x : List Char) (l : List (List Char)) :
    sizeSum (x :: l) = x.length + sizeSum l := by
  simp [sizeSum]

theorem sizeSum_append_single (l : List (List Char)) (x : List Char) :
    sizeSum (l ++ [x]) = sizeSum l + x.length := by
  simp [sizeSum]

theorem joinSp_length : ∀ (g : List (List Char)), g ≠ [] →
    (joinSp g).length + 1 = sizeSum g + g.length := by
  intro g
  induction g with
  | nil => intro h; cases h rfl
  | cons x t ih =>
    intro _
    cases t with
    | nil => simp [joinSp, sizeSum]
    | cons y u =>
      have hih := ih (List.cons_ne_nil y u)
      rw [show joinSp (x :: y :: u) = x ++ ' ' :: joinSp (y :: u) from rfl,
        List.length_append, List.length_cons, sizeSum_cons, List.length_cons]
      omega

/-- The invariant of the sentence-accumulation loop at zero overlap: every
emitted group is nonempty and either its sentence lengths sum to at most
`chunk_size` or it is a single (oversized) sentence. -/
theorem sentenceLoop_zero_overlap (cs : Nat) :
    ∀ (sents current : List (List Char)) (size : Nat) (pos : Int),
      size = sizeSum current →
      (sizeSum current ≤ cs ∨ current.length = 1) →
      ∀ g ∈ sentenceLoop cs 0 sents current size pos,
        g.1 ≠ [] ∧ (sizeSum g.1 ≤ cs ∨ g.1.length = 1) := by
  intro sents
  induction sents with
  | nil =>
    intro current size pos hsz hinv g hg
    simp only [sentenceLoop] at hg
    by_cases hc : current = []
    · rw [if_pos hc] at hg
      simp at hg
    · rw [if_neg hc] at hg
      rw [List.mem_singleton] at hg
      rw [hg]
      exact ⟨hc, hinv⟩
  | cons s0 rest ih =>
    intro current size pos hsz hinv g hg
    have hunf : sentenceLoop cs 0 (s0 :: rest) current size pos =
        if stripList s0 = [] then sentenceLoop cs 0 rest current size pos
        else
          if cs < size + (stripList s0).length ∧ current ≠ [] then
            (current, pos) :: sentenceLoop cs 0 rest [stripList s0]
              (stripList s0).length
              (pos + ((joinSp current).length : Int) + 1)
          else
            sentenceLoop cs 0 rest (current ++ [stripList s0])
              (size + (stripList s0).length) pos := rfl
    rw [hunf] at hg
    by_cases h1 : stripList s0 = []
    · rw [if_pos h1] at hg
      exact ih current size pos hsz hinv g hg
    · rw [if_neg h1] at hg
      by_cases h2 : cs < size + (stripList s0).length ∧ current ≠ []
      · rw [if_pos h2] at hg
        rcases List.mem_cons.mp hg with hg | hg
        · rw [hg]
          exact ⟨h2.2, hinv⟩
        · refine ih _ _ _ ?_ ?_ g hg
          · simp [sizeSum]
          · exact Or.inr rfl
      · rw [if_neg h2] at hg
        refine ih _ _ _ ?_ ?_ g hg
        · rw [sizeSum_append_single, hsz]
        · by_cases hc : current = []
          · refine Or.inr ?_
            rw [hc]
            rfl
          · refine Or.inl ?_
            rw [sizeSum_append_single, ← hsz]
            rcases not_and_or.mp h2 with h2 | h2
            · exact le_of_not_lt h2
            · exact absurd hc h2

theorem chunkOut_texts : ∀ (L : List RawChunk),
    ((L.enum).map (fun ci =>
        ({ text := ci.2.text, startChar := ci.2.start, endChar := ci.2.stop,
           chunkIndex := ci.1 } : ChunkOut))).map (fun c => c.text)
      = L.map (fun c => c.text) := by
  suffices h : ∀ (L : List RawChunk) (k : Nat),
      ((L.enumFrom k).map (fun ci =>
          ({ text := ci.2.text, startChar := ci.2.start, endChar := ci.2.stop,
             chunkIndex := ci.1 } : ChunkOut))).map (fun c => c.text)
        = L.map (fun c => c.text) by
    intro L
    exact h L 0
  intro L
  induction L with
  | nil => intro k; rfl
  | cons c t ih =>
    intro k
    rw [show (c :: t).enumFrom k = (k, c) :: t.enumFrom (k + 1) from rfl]
    simp only [List.map_cons]
    rw [ih (k + 1)]

/-- C6 (amended): in sentence-boundary mode with `chunk_overlap = 0`, on any
text passing the minimum-size gate, the texts of the chunks emitted by
`chunk_text` are exactly the space-joined sentence groups built by the
accumulation loop, in order; and every one of those groups is nonempty with
sentence lengths summing to at most `chunk_size`, unless it is one single
sentence that alone exceeds `chunk_size`.  Since a group's joined text adds
one space per join, a chunk's text exceeds `chunk_size` by at most its
group size − 1.  (The claim's bound on the raw text length fails because
the size check ignores the joining spaces — see the counterexample — and
with `chunk_overlap > 0` the overlap seed can push a chunk further past
`chunk_size`.) -/
theorem sentence_chunks_bounded_by_sentence_sums (cfg : ChunkConfig)
    (h1 : cfg.respectSentenceBoundary = true) (h2 : cfg.chunkOverlap = 0)
    (fuel : Nat) (text : List Char)
    (h3 : ¬ (text = [] ∨ (stripList text).length < cfg.minChunkSize)) :
    ((chunkText cfg fuel text).getD []).map (fun c => c.text)
      = (sentenceLoop cfg.chunkSize 0 (splitSentences (cleanText text))
          [] 0 0).map (fun g => joinSp g.1) ∧
    ∀ g ∈ sentenceLoop cfg.chunkSize 0 (splitSentences (cleanText text))
        [] 0 0,
      g.1 ≠ [] ∧ (joinSp g.1).length + 1 = sizeSum g.1 + g.1.length ∧
      (sizeSum g.1 ≤ cfg.chunkSize ∨ g.1.length = 1) := by
  constructor
  · rw [chunkText, if_neg h3, h1]
    simp only [if_true, Option.map_some', Option.getD_some]
    rw [h2, chunkBySentences, chunkOut_texts, List.map_map]
    rfl
  · intro g hg
    have hinv := sentenceLoop_zero_overlap cfg.chunkSize
      (splitSentences (cleanText text)) [] 0 0 rfl
      (Or.inl (by rw [sizeSum_nil]; exact Nat.zero_le _)) g hg
    exact ⟨hinv.1, joinSp_length g.1 hinv.1, hinv.2⟩

/-- Witness for the C6 theorem: config (8, 0, 1, sentence mode) on
`"ab. cd."` — the single chunk text equals the joined single group
`["ab", "cd."]`, whose sentence lengths sum to 5 ≤ 8 while its text has
length 6 (one joining space). -/
theorem sentence_chunks_bounded_witness :
    ((chunkText ⟨8, 0, 1, true, true⟩ 0 "ab. cd.".toList).getD []).map
        (fun c => c.text)
      = (sentenceLoop 8 0 (splitSentences (cleanText "ab. cd.".toList))
          [] 0 0).map (fun g => joinSp g.1) ∧
    (((["ab".toList, "cd.".toList], (0 : Int)) :
        List (List Char) × Int).1 ≠ [] ∧
      (joinSp ((["ab".toList, "cd.".toList], (0 : Int)) :
          List (List Char) × Int).1).length + 1
        = sizeSum ((["ab".toList, "cd.".toList], (0 : Int)) :
            List (List Char) × Int).1
          + ((["ab".toList, "cd.".toList], (0 : Int)) :
              List (List Char) × Int).1.length ∧
      (sizeSum ((["ab".toList, "cd.".toList], (0 : Int)) :
          List (List Char) × Int).1 ≤ 8 ∨
        ((["ab".toList, "cd.".toList], (0 : Int)) :
            List (List Char) × Int).1.length = 1)) :=
  ⟨(sentence_chunks_bounded_by_sentence_sums ⟨8, 0, 1, true, true⟩ rfl rfl 0
      "ab. cd.".toList (by decide)).1,
    (sentence_chunks_bounded_by_sentence_sums ⟨8, 0, 1, true, true⟩ rfl rfl 0
      "ab. cd.".toList (by decide)).2
      (["ab".toList, "cd.".toList], (0 : Int)) (by decide)⟩

/-! ### Vector-store id-map lemmas -/

theorem idLookup_cons (p : Nat × VSEntry) (m : List (Nat × VSEntry))
    (k : Nat) :
    idLookup (p :: m) k = if p.1 = k then some p.2 else idLookup m k := by
  by_cases h : p.1 = k <;> simp [idLookup, List.find?_cons, h]

theorem idLookup_eq_none_iff (m : List (Nat × VSEntry)) (k : Nat) :
    idLookup m k = none ↔ k ∉ m.map Prod.fst := by
  induction m with
  | nil => simp [idLookup]
  | cons p t ih =>
    rw [idLookup_cons, List.map_cons]
    by_cases h : p.1 = k
    · subst h
      simp
    · rw [if_neg h, ih, List.mem_cons]
      constructor
      · rintro hn (he | hm)
        · exact h he.symm
        · exact hn hm
      · exact fun hn hm => hn (Or.inr hm)

theorem idLookup_isSome_of_mem_keys {m : List (Nat × VSEntry)} {k : Nat}
    (h : k ∈ m.map Prod.fst) : ∃ e, idLookup m k = some e := by
  cases he : idLookup m k with
  | none => exact absurd ((idLookup_eq_none_iff m k).mp he) (not_not.mpr h)
  | some e => exact ⟨e, rfl⟩

theorem dictSetN_any_iff (m : List (Nat × VSEntry)) (k : Nat) :
    (m.any fun p => p.1 = k) = true ↔ k ∈ m.map Prod.fst := by
  rw [List.any_eq_true]
  constructor
  · rintro ⟨p, hp, he⟩
    exact List.mem_map.mpr ⟨p, hp, of_decide_eq_true he⟩
  · intro hm
    obtain ⟨p, hp, he⟩ := List.mem_map.mp hm
    exact ⟨p, hp, decide_eq_true he⟩

theorem dictSetN_of_not_mem {m : List (Nat × VSEntry)} {k : Nat} (v : VSEntry)
    (h : k ∉ m.map Prod.fst) : dictSetN m k v = m ++ [(k, v)] := by
  rw [dictSetN, if_neg]
  exact fun hc => h ((dictSetN_any_iff m k).mp hc)

theorem map_fst_enumFrom_entry (m : List (Nat × VSEntry)) :
    ∀ (l : List Nat) (k : Nat),
      (((l.enumFrom k).map fun p =>
          (p.1, (idLookup m p.2).getD ⟨"", none⟩)).map Prod.fst)
        = List.range' k l.length := by
  intro l
  induction l with
  | nil => intro k; rfl
  | cons a t ih =>
    intro k
    rw [show (a :: t).enumFrom k = (k, a) :: t.enumFrom (k + 1) from rfl,
      List.map_cons, List.map_cons, ih (k + 1), List.length_cons,
      List.range'_succ]

theorem idLookup_enumFrom_entry (m : List (Nat × VSEntry)) :
    ∀ (l : List Nat) (k j : Nat),
      idLookup ((l.enumFrom k).map fun p =>
          (p.1, (idLookup m p.2).getD ⟨"", none⟩)) (k + j)
        = (l[j]?).map fun i => (idLookup m i).getD ⟨"", none⟩ := by
  intro l
  induction l with
  | nil => intro k j; simp [idLookup]
  | cons a t ih =>
    intro k j
    rw [show (a :: t).enumFrom k = (k, a) :: t.enumFrom (k + 1) from rfl,
      List.map_cons, idLookup_cons]
    cases j with
    | zero => rw [if_pos (by simp)]; simp
    | succ j' =>
      rw [if_neg (by simp),
        show k + (j' + 1) = (k + 1) + j' from by omega, ih (k + 1) j',
        List.getElem?_cons_succ]

/-- The rebuild loop characterized: starting from accumulators whose id-map
keys all lie below `k`, it appends the kept slots' vectors in slot order and
re-enumerates their entries from `k`. -/
theorem removeGo_spec {α : Type} [Inhabited α] (vecs : List α)
    (idMap : List (Nat × VSEntry)) (toRemove : List Nat) :
    ∀ (idxs : List Nat) (nv : List α) (nm : List (Nat × VSEntry)) (k : Nat),
      (∀ key ∈ nm.map Prod.fst, key < k) →
      (∀ i ∈ idxs, i ∈ idMap.map Prod.fst) →
      removeGo vecs idMap toRemove idxs (nv, nm, k) =
        (nv ++ (idxs.filter fun i => decide (¬ i ∈ toRemove)).map
            (fun i => vecs.getD i default),
         nm ++ (((idxs.filter fun i => decide (¬ i ∈ toRemove)).enumFrom
            k).map fun p => (p.1, (idLookup idMap p.2).getD ⟨"", none⟩)),
         k + (idxs.filter fun i => decide (¬ i ∈ toRemove)).length) := by
  intro idxs
  induction idxs with
  | nil =>
    intro nv nm k _ _
    simp [removeGo]
  | cons i rest ih =>
    intro nv nm k hk hmem
    by_cases hi : i ∈ toRemove
    · rw [show removeGo vecs idMap toRemove (i :: rest) (nv, nm, k)
          = removeGo vecs idMap toRemove rest (nv, nm, k) from by
        simp only [removeGo, if_pos hi],
        ih nv nm k hk (fun j hj => hmem j (List.mem_cons_of_mem _ hj)),
        List.filter_cons]
      simp [hi]
    · obtain ⟨e, he⟩ := idLookup_isSome_of_mem_keys
        (hmem i (List.mem_cons_self _ _))
      have hset : dictSetN nm k e = nm ++ [(k, e)] :=
        dictSetN_of_not_mem e (fun hc => absurd (hk k hc) (lt_irrefl k))
      rw [show removeGo vecs idMap toRemove (i :: rest) (nv, nm, k)
          = removeGo vecs idMap toRemove rest
              (nv ++ [vecs.getD i default], nm ++ [(k, e)], k + 1) from by
        simp only [removeGo, if_neg hi, he, hset],
        ih _ _ (k + 1) ?_ (fun j hj => hmem j (List.mem_cons_of_mem _ hj)),
        List.filter_cons]
      · simp only [hi, not_false_eq_true, decide_True, if_pos]
        rw [show ((i :: (rest.filter fun i => decide (¬ i ∈ toRemove))).enumFrom k)
            = (k, i) :: ((rest.filter fun i => decide (¬ i ∈ toRemove)).enumFrom (k + 1))
          from rfl]
        simp only [List.map_cons, he, Option.getD_some, Prod.mk.injEq,
          List.length_cons]
        refine ⟨by rw [List.append_assoc]; rfl, by rw [List.append_assoc]; rfl, by omega⟩
      · intro key hkey
        rw [List.map_append, List.mem_append] at hkey
        rcases hkey with hkey | hkey
        · exact Nat.lt_succ_of_lt (hk key hkey)
        · simp only [List.map_cons, List.map_nil, List.mem_singleton] at hkey
          omega

/-- `remove_embeddings` on a well-formed store with a nonempty removal set:
the kept slots' vectors in slot order, re-enumerated from 0. -/
theorem removeEmbeddings_spec {α : Type} [Inhabited α] (st : VectorStore α)
    (ids : List String) (hwf : storeWf st)
    (hne : removedSlots st ids ≠ []) :
    removeEmbeddings ids st =
      { vectors := ((List.range st.vectors.length).filter
            fun i => decide (¬ i ∈ removedSlots st ids)).map
            (fun i => st.vectors.getD i default),
        idMap := ((((List.range st.vectors.length).filter
            fun i => decide (¬ i ∈ removedSlots st ids)).enumFrom 0).map
            fun p => (p.1, (idLookup st.idMap p.2).getD ⟨"", none⟩)) } := by
  rw [removeEmbeddings, if_neg hne]
  rw [removeGo_spec st.vectors st.idMap (removedSlots st ids)
    (List.range st.vectors.length) [] [] 0 (by simp)
    (fun i hi => hwf.mem_iff.mpr hi)]
  simp

theorem length_filter_range_lt {p : Nat → Bool} {n : Nat} :
    ((List.range n).filter p).length ≤ n := by
  calc ((List.range n).filter p).length ≤ (List.range n).length :=
        List.length_filter_le _ _
    _ = n := List.length_range n

/-- C10-supporting lemma: removal preserves the slot-map invariant. -/
theorem removeEmbeddings_wf {α : Type} [Inhabited α] (st : VectorStore α)
    (ids : List String) (hwf : storeWf st) :
    storeWf (removeEmbeddings ids st) := by
  by_cases hne : removedSlots st ids = []
  · rw [removeEmbeddings, if_pos hne]
    exact hwf
  · rw [removeEmbeddings_spec st ids hwf hne]
    simp only [storeWf, List.length_map]
    rw [map_fst_enumFrom_entry, ← List.range_eq_range']

theorem addIdMapGo_keys (meta : Option (List (Option Nat))) (start : Nat) :
    ∀ (eids : List String) (i : Nat) (m : List (Nat × VSEntry)),
      (∀ key ∈ m.map Prod.fst, key < start + i) →
      (addIdMapGo meta start i eids m).map Prod.fst
        = m.map Prod.fst ++ List.range' (start + i) eids.length := by
  intro eids
  induction eids with
  | nil => intro i m _; simp [addIdMapGo]
  | cons e rest ih =>
    intro i m hk
    have hset : dictSetN m (start + i) ⟨e, metaAt meta i⟩
        = m ++ [(start + i, ⟨e, metaAt meta i⟩)] :=
      dictSetN_of_not_mem _ (fun hc => absurd (hk _ hc) (lt_irrefl _))
    have hnext : ∀ key ∈ (m ++ [(start + i, (⟨e, metaAt meta i⟩ : VSEntry))]).map
        Prod.fst, key < start + (i + 1) := by
      intro key hkey
      rw [List.map_append, List.mem_append] at hkey
      rcases hkey with hkey | hkey
      · have := hk key hkey
        omega
      · simp only [List.map_cons, List.map_nil, List.mem_singleton] at hkey
        omega
    rw [show addIdMapGo meta start i (e :: rest) m
        = addIdMapGo meta start (i + 1) rest
            (dictSetN m (start + i) ⟨e, metaAt meta i⟩) from rfl,
      hset, ih (i + 1) _ hnext, List.map_append, List.length_cons,
      List.range'_succ, List.append_assoc,
      show start + (i + 1) = start + i + 1 from by omega]
    rfl

theorem removeEmbeddings_vectors_spec {α : Type} [Inhabited α]
    (st : VectorStore α) (ids : List String) (hwf : storeWf st)
    (hne : removedSlots st ids ≠ []) :
    (removeEmbeddings ids st).vectors
      = ((List.range st.vectors.length).filter
          fun i => decide (¬ i ∈ removedSlots st ids)).map
          (fun i => st.vectors.getD i default) := by
  rw [removeEmbeddings_spec st ids hwf hne]

theorem removeEmbeddings_idMap_spec {α : Type} [Inhabited α]
    (st : VectorStore α) (ids : List String) (hwf : storeWf st)
    (hne : removedSlots st ids ≠ []) :
    (removeEmbeddings ids st).idMap
      = ((((List.range st.vectors.length).filter
          fun i => decide (¬ i ∈ removedSlots st ids)).enumFrom 0).map
          fun p => (p.1, (idLookup st.idMap p.2).getD ⟨"", none⟩)) := by
  rw [removeEmbeddings_spec st ids hwf hne]

/-- The new slot of a kept old slot `i` is the number of kept slots below
`i`: at that position the kept-slot list holds `i` itself. -/
theorem filter_range_getElem_self {P : Nat → Bool} {n i : Nat} (hi : i < n)
    (hPi : P i = true) :
    ((List.range n).filter P)[((List.range i).filter P).length]?
      = some i := by
  have h1 : n = (i + 1) + (n - (i + 1)) := by omega
  rw [show List.range n = List.range ((i + 1) + (n - (i + 1))) from by
      rw [← h1],
    List.range_add, List.filter_append, List.range_succ, List.filter_append,
    show List.filter P [i] = [i] from by rw [List.filter_cons, if_pos hPi]; rfl,
    List.getElem?_append, if_pos (by
      rw [List.length_append, List.length_cons]
      omega),
    List.getElem?_append_right (le_refl _), Nat.sub_self]
  rfl

/-- C2: rebuild preservation.  On any store satisfying the slot-map
invariant, `remove_embeddings` yields a store that again satisfies it (slot
indices dense and contiguous from 0), and every retained slot `i` keeps its
vector value (equality at the abstract vector type = bit-for-bit) and its
entire id-map entry (same `embedding_id` identity and metadata) at its new
slot, the number of retained slots below `i`. -/
theorem rebuild_preserves_vectors_and_ids {α : Type} [Inhabited α]
    (st : VectorStore α) (ids : List String) (hwf : storeWf st) :
    storeWf (removeEmbeddings ids st) ∧
    ∀ i, i < st.vectors.length → ¬ i ∈ removedSlots st ids →
      (removeEmbeddings ids st).vectors[((List.range i).filter
          fun x => decide (¬ x ∈ removedSlots st ids)).length]?
        = st.vectors[i]? ∧
      idLookup (removeEmbeddings ids st).idMap
          ((List.range i).filter
            fun x => decide (¬ x ∈ removedSlots st ids)).length
        = idLookup st.idMap i := by
  refine ⟨removeEmbeddings_wf st ids hwf, ?_⟩
  intro i hi hkept
  by_cases hne : removedSlots st ids = []
  · have hid : removeEmbeddings ids st = st := by
      rw [removeEmbeddings, if_pos hne]
    have hfilter : ∀ l : List Nat,
        (l.filter fun x => decide (¬ x ∈ removedSlots st ids)) = l := by
      intro l
      rw [hne]
      simp
    rw [hid, hfilter, List.length_range]
    exact ⟨rfl, rfl⟩
  · have hPi : (fun x => decide (¬ x ∈ removedSlots st ids)) i = true := by
      simp [hkept]
    have hK := filter_range_getElem_self
      (P := fun x => decide (¬ x ∈ removedSlots st ids)) hi hPi
    constructor
    · rw [removeEmbeddings_vectors_spec st ids hwf hne, List.getElem?_map,
        hK]
      simp only [Option.map_some']
      rw [List.getD_eq_getElem?_getD, List.getElem?_eq_getElem hi]
      rfl
    · have h := idLookup_enumFrom_entry st.idMap
        ((List.range st.vectors.length).filter
          fun x => decide (¬ x ∈ removedSlots st ids)) 0
        (((List.range i).filter
          fun x => decide (¬ x ∈ removedSlots st ids)).length)
      rw [Nat.zero_add] at h
      rw [removeEmbeddings_idMap_spec st ids hwf hne, h, hK]
      simp only [Option.map_some']
      obtain ⟨e, he⟩ := idLookup_isSome_of_mem_keys
        (hwf.mem_iff.mpr (List.mem_range.mpr hi))
      rw [he]
      rfl

/-- Witness for the C2 theorem: removing "a" from a well-formed two-vector
store keeps the vector and the id-map entry of slot 1 at new slot 0. -/
theorem rebuild_preserves_witness :
    storeWf sampleStore ∧
    storeWf (removeEmbeddings ["a"] sampleStore) ∧
    ((removeEmbeddings ["a"] sampleStore).vectors[((List.range 1).filter
        fun x => decide (¬ x ∈ removedSlots sampleStore ["a"])).length]?
      = sampleStore.vectors[1]? ∧
    idLookup (removeEmbeddings ["a"] sampleStore).idMap
        ((List.range 1).filter
          fun x => decide (¬ x ∈ removedSlots sampleStore ["a"])).length
      = idLookup sampleStore.idMap 1) :=
  ⟨by decide,
    (rebuild_preserves_vectors_and_ids _ ["a"] (by decide)).1,
    (rebuild_preserves_vectors_and_ids _ ["a"] (by decide)).2 1 (by decide)
      (by decide)⟩

/-- C10: the implicit slot-map invariant — the id map holds exactly one
entry per stored slot `0 .. ntotal-1` — is preserved by `add_embeddings`
(with equally long text and id lists), by `remove_embeddings`, and by
`clear`. -/
theorem slot_map_invariant_preserved {α : Type} [Inhabited α]
    (embedOne : String → α) (meta : Option (List (Option Nat))) :
    (∀ (texts eids : List String) (st : VectorStore α),
        texts.length = eids.length → storeWf st →
        storeWf (addEmbeddings embedOne texts eids meta st)) ∧
    (∀ (ids : List String) (st : VectorStore α), storeWf st →
        storeWf (removeEmbeddings ids st)) ∧
    (∀ st : VectorStore α, storeWf (clearStore st)) := by
  refine ⟨?_, fun ids st hwf => removeEmbeddings_wf st ids hwf, fun st => ?_⟩
  · intro texts eids st hlen hwf
    by_cases ht : texts = []
    · rw [addEmbeddings, if_pos ht]
      exact hwf
    · rw [addEmbeddings, if_neg ht]
      have hbelow : ∀ key ∈ st.idMap.map Prod.fst,
          key < st.vectors.length + 0 := by
        intro key hkey
        rw [Nat.add_zero]
        exact List.mem_range.mp (hwf.mem_iff.mp hkey)
      simp only [storeWf]
      rw [addIdMapGo_keys meta st.vectors.length eids 0 st.idMap hbelow,
        List.length_append, List.length_map, Nat.add_zero, hlen,
        List.range_add, List.range'_eq_map_range]
      exact hwf.append_right _
  · simp [storeWf, clearStore, emptyStore]

/-- Witness for the C10 theorem on a concrete one-vector store. -/
theorem slot_map_invariant_witness :
    (["t1"] : List String).length = (["e1"] : List String).length ∧
    storeWf (⟨[(5 : ℚ)], [(0, ⟨"x", none⟩)]⟩ : VectorStore ℚ) ∧
    storeWf (addEmbeddings (fun _ => (0 : ℚ)) ["t1"] ["e1"] none
      ⟨[(5 : ℚ)], [(0, ⟨"x", none⟩)]⟩) ∧
    storeWf (removeEmbeddings ["x"]
      (⟨[(5 : ℚ)], [(0, ⟨"x", none⟩)]⟩ : VectorStore ℚ)) ∧
    storeWf (clearStore (⟨[(5 : ℚ)], [(0, ⟨"x", none⟩)]⟩ : VectorStore ℚ)) :=
  ⟨rfl, by decide,
    (slot_map_invariant_preserved (fun _ => (0 : ℚ)) none).1 ["t1"] ["e1"] _
      rfl (by decide),
    (slot_map_invariant_preserved (fun _ => (0 : ℚ)) none).2.1 ["x"] _
      (by decide),
    (slot_map_invariant_preserved (fun _ => (0 : ℚ)) none).2.2 _⟩

/-! ### TF-IDF pairwise deduplication on the spec's concrete batch -/

theorem dedupBatch_vocab :
    batchVocab dedupBatch
      = [["duplicate"], ["sentence"], ["duplicate", "sentence"]] := by
  decide

theorem tfidfDot_dedupBatch_self (idf : List String → ℚ) :
    tfidfDot idf dedupBatch 0 0
      = idf ["duplicate"] * idf ["duplicate"]
        + (idf ["sentence"] * idf ["sentence"]
          + idf ["duplicate", "sentence"] * idf ["duplicate", "sentence"]) := by
  rw [tfidfDot, dedupBatch_vocab]
  simp only [List.map_cons, List.map_nil, List.sum_cons, List.sum_nil]
  rw [show dedupBatch.getD 0 "" = "A duplicate sentence." from rfl,
    show tfCount "A duplicate sentence." ["duplicate"] = 1 from by decide,
    show tfCount "A duplicate sentence." ["sentence"] = 1 from by decide,
    show tfCount "A duplicate sentence." ["duplicate", "sentence"] = 1 from by
      decide]
  push_cast
  ring

theorem tfidfDot_dedupBatch_right_zero (idf : List String → ℚ)
    (i j : Nat) (hj : 2 ≤ j) : tfidfDot idf dedupBatch i j = 0 := by
  have hd : dedupBatch.getD j "" = "Something else."
      ∨ dedupBatch.getD j "" = "" := by
    match j, hj with
    | 2, _ => exact Or.inl rfl
    | (n + 3), _ => exact Or.inr rfl
  rw [tfidfDot, dedupBatch_vocab]
  simp only [List.map_cons, List.map_nil, List.sum_cons, List.sum_nil]
  rcases hd with hd | hd <;> rw [hd]
  · rw [show tfCount "Something else." ["duplicate"] = 0 from by decide,
      show tfCount "Something else." ["sentence"] = 0 from by decide,
      show tfCount "Something else." ["duplicate", "sentence"] = 0 from by
        decide]
    push_cast
    ring
  · rw [show tfCount "" ["duplicate"] = 0 from by decide,
      show tfCount "" ["sentence"] = 0 from by decide,
      show tfCount "" ["duplicate", "sentence"] = 0 from by decide]
    push_cast
    ring

theorem simAtLeast_dedupBatch (idf : List String → ℚ)
    (hpos : ∀ f, 0 < idf f) :
    ∀ i j, simAtLeast idf dedupBatch (9/10) i j = decide (i < 2 ∧ j < 2) := by
  have ha := hpos ["duplicate"]
  have hb := hpos ["sentence"]
  have hc := hpos ["duplicate", "sentence"]
  have hD : 0 < tfidfDot idf dedupBatch 0 0 := by
    rw [tfidfDot_dedupBatch_self idf]
    nlinarith [mul_pos ha ha, mul_pos hb hb, mul_pos hc hc]
  intro i j
  by_cases hj : 2 ≤ j
  · rw [simAtLeast,
      if_pos (Or.inr (tfidfDot_dedupBatch_right_zero idf j j hj)),
      decide_eq_false (by norm_num : ¬((0 : ℚ) ≥ 9/10)),
      decide_eq_false (by omega : ¬(i < 2 ∧ j < 2))]
  · push_neg at hj
    by_cases hi : 2 ≤ i
    · rw [simAtLeast,
        if_pos (Or.inl (tfidfDot_dedupBatch_right_zero idf i i hi)),
        decide_eq_false (by norm_num : ¬((0 : ℚ) ≥ 9/10)),
        decide_eq_false (by omega : ¬(i < 2 ∧ j < 2))]
    · push_neg at hi
      have hdii : tfidfDot idf dedupBatch i i
          = tfidfDot idf dedupBatch 0 0 := by
        interval_cases i <;> rfl
      have hdjj : tfidfDot idf dedupBatch j j
          = tfidfDot idf dedupBatch 0 0 := by
        interval_cases j <;> rfl
      have hdij : tfidfDot idf dedupBatch i j
          = tfidfDot idf dedupBatch 0 0 := by
        interval_cases i <;> interval_cases j <;> rfl
      rw [simAtLeast, hdii, hdjj, hdij,
        if_neg (by
          rintro (h | h) <;> exact absurd h (ne_of_gt hD)),
        decide_eq_true (show (9/10 : ℚ) * (9/10) *
            (tfidfDot idf dedupBatch 0 0 * tfidfDot idf dedupBatch 0 0)
            ≤ tfidfDot idf dedupBatch 0 0 * tfidfDot idf dedupBatch 0 0 from by
          nlinarith [mul_self_nonneg (tfidfDot idf dedupBatch 0 0)]),
        decide_eq_true (show i < 2 ∧ j < 2 from ⟨hi, hj⟩)]

theorem findSimilar_dedupBatch (idf : List String → ℚ)
    (hpos : ∀ f, 0 < idf f) :
    findSimilarChunks idf dedupBatch (9/10) = [[0, 1]] := by
  have hfe : simAtLeast idf dedupBatch (9/10)
      = fun i j => decide (i < 2 ∧ j < 2) :=
    funext fun i => funext fun j => simAtLeast_dedupBatch idf hpos i j
  rw [findSimilarChunks, if_neg (by decide), if_neg (by decide), hfe]
  decide

/-- C9: dedup correctness on the spec's concrete batch.  For any strictly
positive fitted idf weights (the library's smooth idf `ln((1+n)/(1+df))+1`
is at least 1), `deduplicate_chunks` with threshold 0.9 groups the two
identical passages, keeps the first occurrence, and returns exactly the 2
passages `["A duplicate sentence.", "Something else."]`. -/
theorem dedup_batch_keeps_first_occurrence (idf : List String → ℚ)
    (hpos : ∀ f, 0 < idf f) :
    deduplicateChunks (fun s => s) idf dedupBatch (9/10)
      = ["A duplicate sentence.", "Something else."] := by
  rw [deduplicateChunks, if_neg (by decide),
    show dedupBatch.map (fun s => s) = dedupBatch from rfl,
    findSimilar_dedupBatch idf hpos]
  decide

/-- Witness for the C9 theorem at the constant idf weight 1. -/
theorem dedup_batch_witness :
    deduplicateChunks (fun s => s) (fun _ => (1 : ℚ)) dedupBatch (9/10)
      = ["A duplicate sentence.", "Something else."] :=
  dedup_batch_keeps_first_occurrence _ (fun _ => one_pos)

end RagSpec
